import Mathlib

/-!
Verification of the swarm (bzz) routing-table and wire-protocol code of this
repository against its natural-language specification.

The Go sources embedded here are:
  * `common/kademlia/kademlia.go` — the proximity-binned routing table
    (`proximity`, `proxCmp`, `bucket.insert`, `bucket.worstNode`,
    `Kademlia.AddNode`, `Kademlia.RemoveNode`, `Kademlia.adjustProx`,
    `Kademlia.getNodes`, `nodesByDistance.push`, `sortedByDistanceTo`,
    `Kademlia.GetNodeRecords`, `Kademlia.getNodeRecord`).
  * `bzz/protocol.go` — the per-peer wire protocol
    (`bzzProtocol.handleStatus`, `bzzProtocol.handle`, `runBzzProtocol`'s
    message loop, `bzzProtocol.storeRequestLoop`'s per-entry step).

Go machine integers are modelled as `Nat`/`Int`; a byte is a `Nat` together
with the side condition `< 256` where a theorem needs it.  A Go `[32]byte`
address is a `List Nat` of length 32.  Go's `time.Time` values are modelled
as `Nat` where `0` plays the role of the zero value `time.Time{}` and
`Before` is `<`.
-/

namespace Swarm

/-! ## Addresses and the XOR metric (`kademlia.go`) -/

/-- Go inner loop of `proximity`: scan bit positions `j, j+1, ..., 7` of the
byte `b` (most significant bit first, `(b >> (7-j)) & 1`) and return the
first position holding a set bit, or `none` if the remaining bits are clear.
The second argument counts the iterations still to run (`8 - j`), making the
eight-step Go `for` loop a structural recursion. -/
def firstBitFrom (b : Nat) : Nat → Nat → Option Nat
  | _, 0 => none
  | j, k + 1 =>
    if (b >>> (7 - j)) &&& 1 ≠ 0 then some j else firstBitFrom b (j + 1) k

/-- The full inner loop of `proximity`: first set bit of a byte, MSB first. -/
def firstBit (b : Nat) : Option Nat := firstBitFrom b 0 8

/-- `proximity(one, other)` from `kademlia.go`: the index of the first set bit
of the byte-wise XOR of the two addresses, scanning bytes left to right; if
all bytes agree the result is `8 * length` (`len(one) * 8` in Go). -/
def proximity : List Nat → List Nat → Nat
  | x :: xs, y :: ys =>
    match firstBit (x ^^^ y) with
    | some j => j
    | none => 8 + proximity xs ys
  | _, _ => 0

/-- `proxCmp(target, a, b)` from `kademlia.go`: byte-wise comparison of
`a ⊕ target` against `b ⊕ target`, returning `1`, `-1` or (on exhaustion) `0`. -/
def proxCmp : List Nat → List Nat → List Nat → Int
  | t :: ts, x :: xs, y :: ys =>
    let da := x ^^^ t
    let db := y ^^^ t
    if da > db then 1
    else if da < db then -1
    else proxCmp ts xs ys
  | _, _, _ => 0

/-- Byte-wise XOR of two byte strings (the sequence of `one[i] ^ other[i]`
values that `proximity` scans). -/
def xorBytes : List Nat → List Nat → List Nat
  | x :: xs, y :: ys => (x ^^^ y) :: xorBytes xs ys
  | _, _ => []

/-- The big-endian integer value of a byte string (the "binary integer cast
of the xor-ed byte sequence (most significant bit first)" of the kademlia.go
comment on the distance metric). -/
def beVal : List Nat → Nat
  | [] => 0
  | b :: rest => b * 2 ^ (8 * rest.length) + beVal rest

/-- Leading-zero-bit count of a pre-XORed byte string, structured exactly as
the byte scan of `proximity`. -/
def leadZeros : List Nat → Nat
  | [] => 0
  | b :: rest =>
    match firstBit b with
    | some j => j
    | none => 8 + leadZeros rest

/-- A value is a well-formed byte string of a given byte length. -/
def ValidBytes (n : Nat) (l : List Nat) : Prop :=
  l.length = n ∧ ∀ b ∈ l, b < 256

instance (n : Nat) (l : List Nat) : Decidable (ValidBytes n l) := by
  unfold ValidBytes; infer_instance

theorem proximity_eq_leadZeros (xs ys : List Nat) :
    proximity xs ys = leadZeros (xorBytes xs ys) := by
  induction xs generalizing ys with
  | nil => cases ys <;> rfl
  | cons x xs ih =>
    cases ys with
    | nil => rfl
    | cons y ys =>
      simp only [proximity, xorBytes, leadZeros]
      cases firstBit (x ^^^ y) with
      | none => simp [ih]
      | some j => simp

set_option maxRecDepth 8192 in
theorem firstBit_eq_none_iff (b : Nat) (hb : b < 256) :
    firstBit b = none ↔ b = 0 := by
  revert b
  decide

set_option maxRecDepth 8192 in
theorem firstBit_bounds (b : Nat) (hb : b < 256) (hb0 : b ≠ 0) :
    (firstBit b).isSome = true ∧
      ((firstBit b).getD 0 ≤ 7 ∧
        2 ^ (7 - (firstBit b).getD 0) ≤ b ∧ b < 2 ^ (8 - (firstBit b).getD 0)) := by
  revert b
  decide

theorem firstBit_eq_some_size (b : Nat) (hb : b < 256) (hb0 : b ≠ 0) :
    firstBit b = some (8 - Nat.size b) := by
  obtain ⟨hsome, hj7, hlo, hhi⟩ := firstBit_bounds b hb hb0
  obtain ⟨j, hj⟩ := Option.isSome_iff_exists.mp hsome
  rw [hj] at hj7 hlo hhi ⊢
  simp only [Option.getD_some] at hj7 hlo hhi
  have h1 : Nat.size b ≤ 8 - j := Nat.size_le.mpr hhi
  have h2 : 7 - j < Nat.size b := Nat.lt_size.mpr hlo
  congr 1
  omega

theorem beVal_lt (l : List Nat) (h : ∀ b ∈ l, b < 256) :
    beVal l < 2 ^ (8 * l.length) := by
  induction l with
  | nil => simp [beVal]
  | cons b rest ih =>
    have hb : b < 256 := h b (by simp)
    have hr := ih (fun x hx => h x (by simp [hx]))
    have hb' : b ≤ 2 ^ 8 - 1 := by omega
    calc beVal (b :: rest) = b * 2 ^ (8 * rest.length) + beVal rest := rfl
      _ ≤ (2 ^ 8 - 1) * 2 ^ (8 * rest.length) + beVal rest := by
          exact Nat.add_le_add_right (Nat.mul_le_mul_right _ hb') _
      _ < (2 ^ 8 - 1) * 2 ^ (8 * rest.length) + 2 ^ (8 * rest.length) := by
          exact Nat.add_lt_add_left hr _
      _ = 2 ^ 8 * 2 ^ (8 * rest.length) := by
          simp only [show (2 : Nat) ^ 8 = 256 from by norm_num]
          omega
      _ = 2 ^ (8 * (rest.length + 1)) := by
          rw [← pow_add]; ring_nf

theorem size_mul_pow_add (b k r : Nat) (hb0 : b ≠ 0) (hr : r < 2 ^ k) :
    Nat.size (b * 2 ^ k + r) = Nat.size b + k := by
  have hupper : b * 2 ^ k + r < 2 ^ (Nat.size b + k) := by
    have h1 : b < 2 ^ Nat.size b := Nat.lt_size_self b
    have h2 : b ≤ 2 ^ Nat.size b - 1 := by omega
    have hkpos : 0 < 2 ^ k := Nat.pos_pow_of_pos _ (by norm_num)
    calc b * 2 ^ k + r ≤ (2 ^ Nat.size b - 1) * 2 ^ k + r :=
          Nat.add_le_add_right (Nat.mul_le_mul_right _ h2) _
      _ < (2 ^ Nat.size b - 1) * 2 ^ k + 2 ^ k := Nat.add_lt_add_left hr _
      _ = 2 ^ Nat.size b * 2 ^ k := by
          rw [Nat.sub_one_mul, Nat.sub_add_cancel]
          exact Nat.le_mul_of_pos_left _ (Nat.pos_pow_of_pos _ (by norm_num))
      _ = 2 ^ (Nat.size b + k) := (pow_add 2 _ _).symm
  have hlower : 2 ^ (Nat.size b + k - 1) ≤ b * 2 ^ k + r := by
    have hpos : 0 < Nat.size b := Nat.size_pos.mpr (Nat.pos_of_ne_zero hb0)
    have h1 : 2 ^ (Nat.size b - 1) ≤ b := Nat.lt_size.mp (by omega)
    calc 2 ^ (Nat.size b + k - 1) = 2 ^ (Nat.size b - 1) * 2 ^ k := by
          rw [← pow_add]; congr 1; omega
      _ ≤ b * 2 ^ k := Nat.mul_le_mul_right _ h1
      _ ≤ b * 2 ^ k + r := Nat.le_add_right _ _
  have hle : Nat.size (b * 2 ^ k + r) ≤ Nat.size b + k := Nat.size_le.mpr hupper
  have hge : Nat.size b + k - 1 < Nat.size (b * 2 ^ k + r) := Nat.lt_size.mpr hlower
  have hpos : 0 < Nat.size b := Nat.size_pos.mpr (Nat.pos_of_ne_zero hb0)
  omega

theorem leadZeros_eq (l : List Nat) (h : ∀ b ∈ l, b < 256) :
    leadZeros l = 8 * l.length - Nat.size (beVal l) := by
  induction l with
  | nil => simp [leadZeros, beVal]
  | cons b rest ih =>
    have hb : b < 256 := h b (by simp)
    have hr : ∀ x ∈ rest, x < 256 := fun x hx => h x (by simp [hx])
    have hrsize : Nat.size (beVal rest) ≤ 8 * rest.length :=
      Nat.size_le.mpr (beVal_lt rest hr)
    by_cases hb0 : b = 0
    · subst hb0
      have h0 : firstBit 0 = none := by decide
      simp only [leadZeros, h0, beVal]
      have : (0 : Nat) * 2 ^ (8 * rest.length) + beVal rest = beVal rest := by ring
      rw [this, ih hr]
      simp [List.length_cons]
      omega
    · have hsb : Nat.size b ≤ 8 := Nat.size_le.mpr (by omega)
      have hsbpos : 0 < Nat.size b := Nat.size_pos.mpr (Nat.pos_of_ne_zero hb0)
      have hfb : firstBit b = some (8 - Nat.size b) := firstBit_eq_some_size b hb hb0
      simp only [leadZeros, hfb, beVal]
      rw [size_mul_pow_add b _ _ hb0 (beVal_lt rest hr)]
      simp [List.length_cons]
      omega

theorem xorBytes_length (xs ys : List Nat) :
    (xorBytes xs ys).length = min xs.length ys.length := by
  induction xs generalizing ys with
  | nil => cases ys <;> simp [xorBytes]
  | cons x xs ih =>
    cases ys with
    | nil => simp [xorBytes]
    | cons y ys => simp [xorBytes, ih]; omega

theorem xorBytes_comm (xs ys : List Nat) : xorBytes xs ys = xorBytes ys xs := by
  induction xs generalizing ys with
  | nil => cases ys <;> rfl
  | cons x xs ih =>
    cases ys with
    | nil => rfl
    | cons y ys => simp [xorBytes, ih, Nat.xor_comm]

theorem xorBytes_lt (xs ys : List Nat) (hx : ∀ b ∈ xs, b < 256)
    (hy : ∀ b ∈ ys, b < 256) : ∀ b ∈ xorBytes xs ys, b < 256 := by
  induction xs generalizing ys with
  | nil => cases ys <;> simp [xorBytes]
  | cons x xs ih =>
    cases ys with
    | nil => simp [xorBytes]
    | cons y ys =>
      intro b hb
      simp only [xorBytes, List.mem_cons] at hb
      rcases hb with hb | hb
      · subst hb
        have h1 : x < 2 ^ 8 := by have := hx x (by simp); omega
        have h2 : y < 2 ^ 8 := by have := hy y (by simp); omega
        have := Nat.xor_lt_two_pow h1 h2
        omega
      · exact ih ys (fun z hz => hx z (by simp [hz])) (fun z hz => hy z (by simp [hz])) b hb

theorem beVal_eq_zero (l : List Nat) : beVal l = 0 ↔ ∀ b ∈ l, b = 0 := by
  induction l with
  | nil => simp [beVal]
  | cons b rest ih =>
    simp only [beVal, List.mem_cons]
    constructor
    · intro h
      have hp : 0 < 2 ^ (8 * rest.length) := Nat.pos_pow_of_pos _ (by norm_num)
      have hb : b = 0 := by
        by_contra hb0
        have : 1 ≤ b := Nat.pos_of_ne_zero hb0
        nlinarith [Nat.le_add_right (b * 2 ^ (8 * rest.length)) (beVal rest)]
      have hr : beVal rest = 0 := by omega
      intro x hx
      rcases hx with hx | hx
      · omega
      · exact ih.mp hr x hx
    · intro h
      have hb : b = 0 := h b (Or.inl rfl)
      have hr : beVal rest = 0 := ih.mpr fun x hx => h x (Or.inr hx)
      simp [hb, hr]

theorem xorBytes_all_zero_iff (xs ys : List Nat) (hlen : xs.length = ys.length) :
    (∀ b ∈ xorBytes xs ys, b = 0) ↔ xs = ys := by
  induction xs generalizing ys with
  | nil => cases ys with
    | nil => simp [xorBytes]
    | cons y ys => simp at hlen
  | cons x xs ih =>
    cases ys with
    | nil => simp at hlen
    | cons y ys =>
      simp only [xorBytes, List.mem_cons, List.cons.injEq]
      constructor
      · intro h
        have hx : x ^^^ y = 0 := h _ (Or.inl rfl)
        have := (ih ys (by simpa using hlen)).mp fun b hb => h b (Or.inr hb)
        exact ⟨Nat.xor_eq_zero.mp hx, this⟩
      · rintro ⟨rfl, rfl⟩
        intro b hb
        rcases hb with hb | hb
        · simp [hb]
        · exact (ih xs rfl).mpr rfl b hb

/-- Shared core of the C5 and C6 arguments: on valid 32-byte addresses,
`proximity` computes `256` minus the bit length of the big-endian value of
the XOR, and that bit length is at most `256`. -/
theorem proximity_size_core (x y : List Nat)
    (hx : ValidBytes 32 x) (hy : ValidBytes 32 y) :
    proximity x y = 256 - Nat.size (beVal (xorBytes x y)) ∧
      Nat.size (beVal (xorBytes x y)) ≤ 256 := by
  obtain ⟨hxl, hxb⟩ := hx
  obtain ⟨hyl, hyb⟩ := hy
  have hxorlen : (xorBytes x y).length = 32 := by
    rw [xorBytes_length, hxl, hyl]; simp
  have hxorb : ∀ b ∈ xorBytes x y, b < 256 := xorBytes_lt x y hxb hyb
  refine ⟨?_, ?_⟩
  · rw [proximity_eq_leadZeros, leadZeros_eq _ hxorb, hxorlen]
  · have := Nat.size_le.mpr (beVal_lt _ hxorb)
    rw [hxorlen] at this
    exact this

/--
Claim C6: `proximity(x, y)` equals the number of leading zero bits of the
big-endian integer value of `x ⊕ y` — for a 256-bit quantity this is
`256 - Nat.size` of the value — lies in `[0, 256]`, and equals `256`
exactly when `x = y`.
-/
theorem proximity_leading_zeros (x y : List Nat)
    (hx : ValidBytes 32 x) (hy : ValidBytes 32 y) :
    proximity x y = 256 - Nat.size (beVal (xorBytes x y)) ∧
      proximity x y ≤ 256 ∧
      (proximity x y = 256 ↔ x = y) := by
  obtain ⟨hmain, hsize⟩ := proximity_size_core x y hx hy
  obtain ⟨hxl, hxb⟩ := hx
  obtain ⟨hyl, hyb⟩ := hy
  refine ⟨hmain, by omega, ?_⟩
  rw [hmain]
  constructor
  · intro h
    have hz : Nat.size (beVal (xorBytes x y)) = 0 := by omega
    have h0 : beVal (xorBytes x y) = 0 := Nat.size_eq_zero.mp hz
    exact (xorBytes_all_zero_iff x y (by omega)).mp ((beVal_eq_zero _).mp h0)
  · intro h
    have h0 : beVal (xorBytes x y) = 0 :=
      (beVal_eq_zero _).mpr ((xorBytes_all_zero_iff x y (by omega)).mpr h)
    simp [h0]

/-- `proxCmp` returning `-1` is exactly big-endian-value comparison of the
XORed byte strings (for equal-length, in-range byte strings). -/
theorem proxCmp_neg_val (t a b : List Nat)
    (hat : a.length = t.length) (hbt : b.length = t.length)
    (ha : ∀ z ∈ a, z < 256) (hb : ∀ z ∈ b, z < 256)
    (ht : ∀ z ∈ t, z < 256) :
    proxCmp t a b < 0 → beVal (xorBytes a t) < beVal (xorBytes b t) := by
  induction t generalizing a b with
  | nil =>
    intro h
    rw [List.length_nil, List.length_eq_zero] at hat hbt
    subst hat; subst hbt
    simp [proxCmp] at h
  | cons tb ts ih =>
    intro h
    cases a with
    | nil => simp at hat
    | cons ab as =>
      cases b with
      | nil => simp at hbt
      | cons bb bs =>
        have hta : as.length = ts.length := by simpa using hat
        have htb : bs.length = ts.length := by simpa using hbt
        have htb256 : tb < 256 := ht tb (by simp)
        have hab256 : ab < 256 := ha ab (by simp)
        have hbb256 : bb < 256 := hb bb (by simp)
        have hda : ab ^^^ tb < 256 := by
          have h1 : ab < 2 ^ 8 := by omega
          have h2 : tb < 2 ^ 8 := by omega
          have := Nat.xor_lt_two_pow h1 h2
          omega
        have hdb : bb ^^^ tb < 256 := by
          have h1 : bb < 2 ^ 8 := by omega
          have h2 : tb < 2 ^ 8 := by omega
          have := Nat.xor_lt_two_pow h1 h2
          omega
        simp only [proxCmp] at h
        by_cases hgt : ab ^^^ tb > bb ^^^ tb
        · simp [hgt] at h
        · by_cases hlt : ab ^^^ tb < bb ^^^ tb
          · -- the head byte decides: value of `a ⊕ t` is below value of `b ⊕ t`
            simp only [xorBytes, beVal]
            have hlen1 : (xorBytes as ts).length = ts.length := by
              rw [xorBytes_length, hta]; simp
            have hlen2 : (xorBytes bs ts).length = ts.length := by
              rw [xorBytes_length, htb]; simp
            have hva : beVal (xorBytes as ts) < 2 ^ (8 * ts.length) := by
              have := beVal_lt (xorBytes as ts)
                (xorBytes_lt as ts (fun z hz => ha z (by simp [hz]))
                  (fun z hz => ht z (by simp [hz])))
              rwa [hlen1] at this
            rw [hlen1, hlen2]
            calc (ab ^^^ tb) * 2 ^ (8 * ts.length) + beVal (xorBytes as ts)
                < (ab ^^^ tb) * 2 ^ (8 * ts.length) + 2 ^ (8 * ts.length) :=
                  Nat.add_lt_add_left hva _
              _ = ((ab ^^^ tb) + 1) * 2 ^ (8 * ts.length) := by ring
              _ ≤ (bb ^^^ tb) * 2 ^ (8 * ts.length) :=
                  Nat.mul_le_mul_right _ (by omega)
              _ ≤ (bb ^^^ tb) * 2 ^ (8 * ts.length) + beVal (xorBytes bs ts) :=
                  Nat.le_add_right _ _
          · -- equal head bytes: recurse on the tails
            have heq : ab ^^^ tb = bb ^^^ tb := by omega
            simp only [hgt, hlt, if_false] at h
            have hrec := ih as bs hta htb (fun z hz => ha z (by simp [hz]))
              (fun z hz => hb z (by simp [hz])) (fun z hz => ht z (by simp [hz])) h
            simp only [xorBytes, beVal, heq]
            have hlen1 : (xorBytes as ts).length = ts.length := by
              rw [xorBytes_length, hta]; simp
            have hlen2 : (xorBytes bs ts).length = ts.length := by
              rw [xorBytes_length, htb]; simp
            rw [hlen1, hlen2]
            omega

/--
Claim C5: For 32-byte addresses: if `proxCmp(t, a, b) < 0` (that is, `a ⊕ t`
is smaller than `b ⊕ t` as a big-endian integer) then
`proximity(t, a) ≥ proximity(t, b)`.
-/
theorem proxCmp_lt_proximity_ge (t a b : List Nat)
    (ht : ValidBytes 32 t) (ha : ValidBytes 32 a) (hb : ValidBytes 32 b)
    (hcmp : proxCmp t a b < 0) :
    proximity t a ≥ proximity t b := by
  obtain ⟨htl, htb⟩ := ht
  obtain ⟨hal, hab⟩ := ha
  obtain ⟨hbl, hbb⟩ := hb
  have hval := proxCmp_neg_val t a b (by omega) (by omega) hab hbb htb hcmp
  have hproxa := (proximity_size_core t a ⟨htl, htb⟩ ⟨hal, hab⟩).1
  have hproxb := (proximity_size_core t b ⟨htl, htb⟩ ⟨hbl, hbb⟩).1
  rw [xorBytes_comm t a] at hproxa
  rw [xorBytes_comm t b] at hproxb
  have hmono : Nat.size (beVal (xorBytes a t)) ≤ Nat.size (beVal (xorBytes b t)) :=
    Nat.size_le_size (Nat.le_of_lt hval)
  omega

/-- Concrete 32-byte addresses used by the closed-form witnesses below. -/
def addrZeros : List Nat := List.replicate 32 0

/-- Address whose first byte is `0x10`: first set bit at position 3. -/
def addr16 : List Nat := 16 :: List.replicate 31 0

/-- Address whose first byte is `0x04`: first set bit at position 5. -/
def addr4 : List Nat := 4 :: List.replicate 31 0

/-- Witness for C5 at a concrete input: `addr4` is closer to the zero target
than `addr16`, and its proximity is indeed at least as large. -/
theorem proxCmp_lt_proximity_ge_witness :
    proxCmp addrZeros addr4 addr16 < 0 ∧
      proximity addrZeros addr4 ≥ proximity addrZeros addr16 :=
  ⟨by decide,
    proxCmp_lt_proximity_ge addrZeros addr4 addr16
      (by decide) (by decide) (by decide) (by decide)⟩

/-- Witness for C6 at concrete inputs: the characterization evaluated at
`addr16` against the zero address, and at equal addresses. -/
theorem proximity_leading_zeros_witness :
    (proximity addr16 addrZeros = 256 - Nat.size (beVal (xorBytes addr16 addrZeros)) ∧
        proximity addr16 addrZeros ≤ 256 ∧
        (proximity addr16 addrZeros = 256 ↔ addr16 = addrZeros)) ∧
      (proximity addrZeros addrZeros = 256 ↔ addrZeros = addrZeros) :=
  ⟨proximity_leading_zeros addr16 addrZeros (by decide) (by decide),
    (proximity_leading_zeros addrZeros addrZeros (by decide) (by decide)).2.2⟩

/-! ## The routing table (`kademlia.go`)

`Node` is an interface (`Addr()`, `Url()`, `LastActive()`, `Drop()`); it is
modelled as a record of the observations the routing table makes of it.
`LastActive` is a `Nat` whose `0` stands for the zero `time.Time{}` (the
value `bucket.worstNode` compares against) and whose order is `Before`. -/

structure KNode where
  addr : List Nat
  url : Nat
  lastActive : Nat
deriving DecidableEq, Repr

/-- A `NodeRecord` of the persisted pool (`nodeDB`), as far as the routing
table observes it. -/
structure NodeRecord where
  address : List Nat
  url : Nat
  active : Int
deriving DecidableEq, Repr

/-- `bucket`: in-situ mutable bucket with its capacity field `size`. -/
structure KBucket where
  size : Nat
  nodes : List KNode
deriving DecidableEq, Repr

/-- The `Kademlia` struct state (the fields the embedded operations read or
write; the `nodeIndex` map and the callbacks are not needed by any claim).
`currentMaxBucketSize` is a Go `int` that no code in the source ever
assigns, so it is `0` on every state the program actually reaches. -/
structure Kad where
  addr : List Nat
  maxProx : Nat
  maxProxBinSize : Nat
  bucketSize : Nat
  currentMaxBucketSize : Int
  proxLimit : Nat
  proxSize : Int
  count : Int
  buckets : List KBucket
  nodeDB : List (List NodeRecord)
deriving DecidableEq, Repr

/-- `Kademlia.Start(addr)` on a fresh `Kademlia` value whose adjustable
parameters were preset to the given values (`0` selects the Go default:
`maxProx = 255`, `bucketSize = 20`, `MaxProxBinSize = BucketSize`). -/
def kadStart (addr : List Nat) (maxProx bucketSize maxProxBinSize : Nat) : Kad :=
  let mp := if maxProx = 0 then 255 else maxProx
  let bs := if bucketSize = 0 then 20 else bucketSize
  let mpbs := if maxProxBinSize = 0 then bs else maxProxBinSize
  { addr := addr
    maxProx := mp
    maxProxBinSize := mpbs
    bucketSize := bs
    currentMaxBucketSize := 0
    proxLimit := 0
    proxSize := 0
    count := 0
    buckets := List.replicate (mp + 1) { size := bs, nodes := [] }
    nodeDB := List.replicate (8 * addr.length) [] }

/-- `Kademlia.proximityBin`: `proximity` capped at `MaxProx`. -/
def proximityBin (s : Kad) (other : List Nat) : Nat :=
  min (proximity s.addr other) s.maxProx

/-- The loop state of `bucket.worstNode`: fold over the remaining nodes with
the running pair `(index, oldest)`; a node replaces the pair when
`oldest == time.Time{}` (here `oldest = 0`) or its `LastActive` is `Before`
(here `<`) `oldest`.  Returns the final `(index, oldest)`. -/
def worstAux : List KNode → Nat → Nat → Nat → Nat × Nat
  | [], _, oldest, index => (index, oldest)
  | n :: rest, i, oldest, index =>
    if oldest = 0 ∨ n.lastActive < oldest then worstAux rest (i + 1) n.lastActive i
    else worstAux rest (i + 1) oldest index

/-- `bucket.worstNode`: index of the entry selected for eviction. -/
def worstNode (nodes : List KNode) : Nat :=
  (worstAux nodes 0 0 0).1

/-- `bucket.insert`: append while the bucket holds fewer than `size` entries,
otherwise overwrite the `worstNode` entry.  (The Go function's `err` result
is always `nil`.) -/
def bucketInsert (b : KBucket) (n : KNode) : KBucket :=
  if b.nodes.length ≥ b.size then
    { b with nodes := b.nodes.set (worstNode b.nodes) n }
  else
    { b with nodes := b.nodes ++ [n] }

/-- The advancing `for` loop inside the first case of `Kademlia.adjustProx`:
while `proxLimit < MaxProx` and bucket `proxLimit` is non-empty, subtract
that bucket's size from `proxSize` and advance `proxLimit`.  The first
argument is the remaining iteration budget `maxProx - pl`, making the loop a
structural recursion; the budget is exact, since each pass increments `pl`
and the loop guard requires `pl < maxProx`. -/
def advanceProxGo (buckets : List KBucket) (maxProx : Nat) :
    Nat → Nat → Int → Nat × Int
  | 0, pl, ps => (pl, ps)
  | fuel + 1, pl, ps =>
    if pl < maxProx ∧ 0 < (buckets.getD pl ⟨0, []⟩).nodes.length then
      advanceProxGo buckets maxProx fuel (pl + 1)
        (ps - ((buckets.getD pl ⟨0, []⟩).nodes.length : Int))
    else (pl, ps)

/-- The advancing loop started at `pl` with its exact iteration budget. -/
def advanceProx (buckets : List KBucket) (maxProx : Nat) (pl : Nat) (ps : Int) :
    Nat × Int :=
  advanceProxGo buckets maxProx (maxProx - pl) pl ps

/-- `Kademlia.adjustProx(r, add)`: the four-armed `switch` updating
`proxLimit` and `proxSize` after a bucket mutation at bin `r`. -/
def adjustProx (s : Kad) (r : Nat) (add : Int) : Kad :=
  if add > 0 ∧ r = s.proxLimit then
    let pl0 := s.proxLimit + add.toNat
    let res := advanceProx s.buckets s.maxProx pl0 s.proxSize
    { s with proxLimit := res.1, proxSize := res.2 }
  else if add > 0 ∧ r > s.proxLimit ∧ s.proxSize + add > (s.maxProxBinSize : Int) then
    { s with
        proxLimit := s.proxLimit + 1
        proxSize := s.proxSize - (((s.buckets.getD r ⟨0, []⟩).nodes.length : Int) - add) }
  else if add > 0 ∧ r > s.proxLimit then
    { s with proxSize := s.proxSize + add }
  else if add < 0 ∧ r < s.proxLimit ∧ (s.buckets.getD r ⟨0, []⟩).nodes.length = 0 then
    -- `for i := proxLimit - 1; i > r; i--  { proxSize += len(buckets[i].nodes) }`
    let idxs := List.range' (r + 1) (s.proxLimit - (r + 1))
    { s with
        proxLimit := r
        proxSize := idxs.foldl
          (fun acc i => acc + ((s.buckets.getD i ⟨0, []⟩).nodes.length : Int)) s.proxSize }
  else s

/-- `Kademlia.AddNode`: insert into the proximity bin, bump `count`, and
adjust `proxLimit`/`proxSize` when the bin is at or beyond `proxLimit`.
(The asynchronous `nodeDB`/`nodeIndex` goroutine touches neither the buckets
nor the counters and is outside the table lock, so it is not part of this
state transition.) -/
def addNode (s : Kad) (n : KNode) : Kad :=
  let index := proximityBin s n.addr
  let b := bucketInsert (s.buckets.getD index ⟨s.bucketSize, []⟩) n
  let s1 := { s with buckets := s.buckets.set index b, count := s.count + 1 }
  if index ≥ s1.proxLimit then adjustProx s1 index 1 else s1

/-- The removal scan of `Kademlia.RemoveNode`, with Go's index handling kept
verbatim: after erasing position `i` the loop still increments `i`.  The
last argument is the remaining iteration budget, a structural-recursion
rendering of the `for` loop; since `i` grows by one per pass and the list
never grows, a budget equal to the initial list length is exact. -/
def removeScanGo (a : List Nat) : List KNode → Nat → Nat → List KNode
  | nodes, _, 0 => nodes
  | nodes, i, fuel + 1 =>
    if h : i < nodes.length then
      if (nodes.get ⟨i, h⟩).addr = a then removeScanGo a (nodes.eraseIdx i) (i + 1) fuel
      else removeScanGo a nodes (i + 1) fuel
    else nodes

/-- The removal scan started at index `0` with its exact iteration budget. -/
def removeScan (a : List Nat) (nodes : List KNode) : List KNode :=
  removeScanGo a nodes 0 nodes.length

/-- `Kademlia.RemoveNode`: scan the bin for the address, decrement `count`
(unconditionally), and roll back `proxLimit` when the bin became empty.
The `err` result and the `GetNode` callback change no state. -/
def removeNode (s : Kad) (n : KNode) : Kad :=
  let index := proximityBin s n.addr
  let b := s.buckets.getD index ⟨0, []⟩
  let nodes1 := removeScan n.addr b.nodes
  let s1 := { s with
    buckets := s.buckets.set index { b with nodes := nodes1 }
    count := s.count - 1 }
  if nodes1.length = 0 then adjustProx s1 index (-1) else s1

/-- `Kademlia.Count`. -/
def kadCount (s : Kad) : Int := s.count

/-- Total number of entries actually held in the buckets. -/
def storedNodes (s : Kad) : Nat :=
  (s.buckets.map (fun b => b.nodes.length)).sum

/-- `Kademlia.getNodeRecord(row, col)`: bounds-checked lookup in `nodeDB`. -/
def getNodeRecord (s : Kad) (row col : Nat) : Option NodeRecord :=
  if row < s.nodeDB.length ∧ col < (s.nodeDB.getD row []).length then
    some ((s.nodeDB.getD row []).getD col ⟨[], 0, 0⟩)
  else none

/-- The body of one round of `Kademlia.GetNodeRecords`: for each bucket `i`,
when `len(b.nodes) + round < currentMaxBucketSize` and the record exists,
the source executes `nrs = append(nrs)` — a Go `append` with **no element**,
which leaves `nrs` unchanged. -/
def getNodeRecordsRound (s : Kad) (round : Nat) (nrs : List NodeRecord) :
    List NodeRecord :=
  (List.range s.buckets.length).foldl
    (fun acc i =>
      if ((s.buckets.getD i ⟨0, []⟩).nodes.length : Int) + round < s.currentMaxBucketSize then
        match getNodeRecord s i round with
        | some _ => acc  -- `nrs = append(nrs)` appends nothing
        | none => acc
      else acc) nrs

/-- The outer `for max > 0` loop of `Kademlia.GetNodeRecords`. -/
def getNodeRecordsLoop (s : Kad) (nrs : List NodeRecord) (round : Nat) :
    Nat → List NodeRecord
  | 0 => nrs
  | m + 1 => getNodeRecordsLoop s (getNodeRecordsRound s round nrs) (round + 1) m

/-- `Kademlia.GetNodeRecords(max)` (the `err` result is always `nil`). -/
def GetNodeRecords (s : Kad) (max : Nat) : List NodeRecord :=
  getNodeRecordsLoop s [] 0 max

/-! ## C10: `RemoveNode` always decrements `count` -/

theorem adjustProx_count (s : Kad) (r : Nat) (a : Int) :
    (adjustProx s r a).count = s.count := by
  unfold adjustProx
  repeat' split
  all_goals rfl

/-- Node used by the closed-form part of the C10 theorem. -/
def c10Node : KNode := ⟨addrZeros, 0, 1⟩

set_option maxRecDepth 16384 in
/--
Claim C10: `RemoveNode` decrements the `count` field by exactly one for every
argument, whether or not an entry with that address is present; from a fresh
table a removal therefore drives `Count()` to `-1` while no node is stored.
-/
theorem removeNode_always_decrements :
    (∀ (s : Kad) (n : KNode), (removeNode s n).count = s.count - 1) ∧
      kadCount (removeNode (kadStart addrZeros 0 0 0) c10Node) = -1 ∧
      storedNodes (removeNode (kadStart addrZeros 0 0 0) c10Node) = 0 := by
  refine ⟨fun s n => ?_, by decide, by decide⟩
  simp only [removeNode]
  split
  · rw [adjustProx_count]
  · rfl

/-! ## C2: `GetNodeRecords` returns no records -/

theorem getNodeRecordsRound_id (s : Kad) (round : Nat) (nrs : List NodeRecord) :
    getNodeRecordsRound s round nrs = nrs := by
  unfold getNodeRecordsRound
  generalize List.range s.buckets.length = l
  induction l generalizing nrs with
  | nil => rfl
  | cons i l ih =>
    rw [List.foldl_cons]
    have hstep : ∀ (acc : List NodeRecord),
        (if ((s.buckets.getD i ⟨0, []⟩).nodes.length : Int) + round < s.currentMaxBucketSize then
          match getNodeRecord s i round with
          | some _ => acc
          | none => acc
        else acc) = acc := by
      intro acc
      split
      · split <;> rfl
      · rfl
    rw [hstep, ih]

/--
Claim C2: The claim fails on the code: `GetNodeRecords(max)` returns the empty
list on every state and for every `max`, because the accumulation statement
is `nrs = append(nrs)` — an append of no element (and, independently,
`currentMaxBucketSize` is never assigned).  No state can make it return the
round-robin selection the claim (and the function's own doc comment)
describe.
-/
theorem getNodeRecords_always_empty (s : Kad) (max : Nat) :
    GetNodeRecords s max = [] := by
  unfold GetNodeRecords
  suffices h : ∀ (m : Nat) (round : Nat) (nrs : List NodeRecord),
      getNodeRecordsLoop s nrs round m = nrs from h max 0 []
  intro m
  induction m with
  | zero => intro round nrs; rfl
  | succ m ih =>
    intro round nrs
    unfold getNodeRecordsLoop
    rw [getNodeRecordsRound_id, ih]

/-! ## C1: `proxLimit` can advance past an empty bin -/

/-- Node in proximity bin 3 of the zero address. -/
def c1Node16 : KNode := ⟨addr16, 1, 1⟩

/-- Node in proximity bin 5 of the zero address. -/
def c1Node4 : KNode := ⟨addr4, 2, 1⟩

/-- Twenty `AddNode`s into bin 3 followed by one into bin 5, on a freshly
started table with the default parameters (`MaxProx = 255`,
`BucketSize = MaxProxBinSize = 20`). -/
def c1State : Kad :=
  (List.replicate 20 c1Node16 ++ [c1Node4]).foldl addNode (kadStart addrZeros 0 0 0)

/--
Claim C1: The claimed invariant fails on the code: after twenty `AddNode`s
into bin 3 and one into bin 5 of a freshly started table with default
parameters, the second `adjustProx` arm advances `proxLimit` to 1 although
bucket 0 is empty — contradicting both the claim and the code's own
`GetNodes` doc comment ("there is no empty buckets in bin < proxLimit").
-/
theorem c1_empty_bin_below_proxLimit :
    c1State.proxLimit = 1 ∧ (c1State.buckets.getD 0 ⟨0, []⟩).nodes.length = 0 := by
  decide

/-! ## C3: bucket insertion and the `worstNode` eviction rule -/

theorem worstAux_spec (rest : List KNode) (i oldest index : Nat)
    (hold : 0 < oldest) (hpos : ∀ m ∈ rest, 0 < m.lastActive) :
    (worstAux rest i oldest index).2 ≤ oldest ∧
      (∀ m ∈ rest, (worstAux rest i oldest index).2 ≤ m.lastActive) ∧
      (worstAux rest i oldest index = (index, oldest) ∨
        ∃ j, ∃ h : j < rest.length,
          (worstAux rest i oldest index).1 = i + j ∧
            (worstAux rest i oldest index).2 = (rest.get ⟨j, h⟩).lastActive) := by
  induction rest generalizing i oldest index with
  | nil => exact ⟨le_refl _, by simp, Or.inl rfl⟩
  | cons n rest ih =>
    have hn : 0 < n.lastActive := hpos n (by simp)
    have hrest : ∀ m ∈ rest, 0 < m.lastActive := fun m hm => hpos m (by simp [hm])
    by_cases hcase : n.lastActive < oldest
    · rw [show worstAux (n :: rest) i oldest index = worstAux rest (i + 1) n.lastActive i from by
        rw [worstAux, if_pos (Or.inr hcase)]]
      obtain ⟨h1, h2, h3⟩ := ih (i + 1) n.lastActive i hn hrest
      refine ⟨le_trans h1 (le_of_lt hcase), ?_, ?_⟩
      · intro m hm
        rcases List.mem_cons.mp hm with rfl | hm
        · exact h1
        · exact h2 m hm
      · rcases h3 with h3 | ⟨j, hj, hj1, hj2⟩
        · refine Or.inr ⟨0, by simp, ?_, ?_⟩
          · rw [h3]; simp
          · rw [h3]; simp
        · exact Or.inr ⟨j + 1, by simpa using Nat.succ_lt_succ hj, by omega, by simpa using hj2⟩
    · rw [show worstAux (n :: rest) i oldest index = worstAux rest (i + 1) oldest index from by
        rw [worstAux, if_neg]
        rintro (h0 | hlt)
        · omega
        · exact hcase hlt]
      obtain ⟨h1, h2, h3⟩ := ih (i + 1) oldest index hold hrest
      refine ⟨h1, ?_, ?_⟩
      · intro m hm
        rcases List.mem_cons.mp hm with rfl | hm
        · omega
        · exact h2 m hm
      · rcases h3 with h3 | ⟨j, hj, hj1, hj2⟩
        · exact Or.inl h3
        · exact Or.inr ⟨j + 1, by simp only [List.length_cons]; omega, by omega, by simpa using hj2⟩

theorem worstNode_spec (nodes : List KNode) (hne : 0 < nodes.length)
    (hpos : ∀ m ∈ nodes, 0 < m.lastActive) :
    worstNode nodes < nodes.length ∧
      ∀ m ∈ nodes, (nodes.getD (worstNode nodes) ⟨[], 0, 0⟩).lastActive ≤ m.lastActive := by
  cases nodes with
  | nil => simp at hne
  | cons n0 rest =>
    have h0 : worstAux (n0 :: rest) 0 0 0 = worstAux rest 1 n0.lastActive 0 := by
      rw [worstAux, if_pos (Or.inl rfl)]
    have hn0 : 0 < n0.lastActive := hpos n0 (by simp)
    have hrest : ∀ m ∈ rest, 0 < m.lastActive := fun m hm => hpos m (by simp [hm])
    obtain ⟨h1, h2, h3⟩ := worstAux_spec rest 1 n0.lastActive 0 hn0 hrest
    unfold worstNode
    rw [h0]
    rcases h3 with h3 | ⟨j, hj, hj1, hj2⟩
    · rw [h3]
      refine ⟨by simp, ?_⟩
      intro m hm
      rcases List.mem_cons.mp hm with rfl | hm
      · simp [List.getD]
      · simpa [List.getD, h3] using h2 m hm
    · rw [hj1]
      refine ⟨by simp; omega, ?_⟩
      have hget : (n0 :: rest).getD (1 + j) ⟨[], 0, 0⟩ = rest.get ⟨j, hj⟩ := by
        rw [show 1 + j = j + 1 from by omega]
        simp [List.getD, List.getElem?_eq_getElem hj, List.get_eq_getElem]
      rw [hget, ← hj2]
      intro m hm
      rcases List.mem_cons.mp hm with rfl | hm
      · exact h1
      · exact h2 m hm

/--
Claim C3 (amended): A bucket insertion appends at the end while the bucket
holds fewer than `size` entries and never grows a bucket past
`max size length`; when the bucket is full, the `worstNode` entry is
overwritten, and **provided no entry's last-active time is the zero
`time.Time{}` value**, that entry is one with the minimum last-active time.
(Without the proviso the claim is false: see the counterexample, where a
zero running minimum restarts the scan.)
-/
theorem bucketInsert_spec (b : KBucket) (n : KNode) :
    (b.nodes.length < b.size → (bucketInsert b n).nodes = b.nodes ++ [n]) ∧
      (bucketInsert b n).nodes.length ≤ max b.size b.nodes.length ∧
      (b.size ≤ b.nodes.length → 0 < b.nodes.length →
        (∀ m ∈ b.nodes, 0 < m.lastActive) →
        (bucketInsert b n).nodes = b.nodes.set (worstNode b.nodes) n ∧
          worstNode b.nodes < b.nodes.length ∧
          ∀ m ∈ b.nodes,
            (b.nodes.getD (worstNode b.nodes) ⟨[], 0, 0⟩).lastActive ≤ m.lastActive) := by
  refine ⟨?_, ?_, ?_⟩
  · intro hlt
    unfold bucketInsert
    rw [if_neg (by omega)]
  · unfold bucketInsert
    split
    · simp only [List.length_set]
      omega
    · simp only [List.length_append, List.length_cons, List.length_nil]
      omega
  · intro hge hne hpos
    obtain ⟨h1, h2⟩ := worstNode_spec b.nodes hne hpos
    refine ⟨?_, h1, h2⟩
    unfold bucketInsert
    rw [if_pos (by omega)]

/-- Bucket-size-2 table (preset `BucketSize = 2`, `MaxProx = 7`) reached by
three `AddNode`s into bin 3; the first node carries the zero last-active
time. -/
def c3Start : Kad := kadStart addrZeros 7 2 0

/-- First inserted node: zero (`time.Time{}`) last-active stamp. -/
def c3n1 : KNode := ⟨addr16, 1, 0⟩

/-- Second inserted node (same bin 3), last active at 3. -/
def c3n2 : KNode := ⟨17 :: List.replicate 31 0, 2, 3⟩

/-- Third inserted node (same bin 3), forcing an eviction. -/
def c3n3 : KNode := ⟨18 :: List.replicate 31 0, 3, 5⟩

/-- The table after the three insertions. -/
def c3State : Kad := addNode (addNode (addNode c3Start c3n1) c3n2) c3n3

/--
Claim C3 (counterexample): On the full bucket `[c3n1, c3n2]` the insertion of
`c3n3` evicts `c3n2` (last active at 3) although `c3n1` (last active at the
zero time, strictly older) is present: the `oldest == time.Time{}` guard in
`worstNode` restarts the scan after a zero running minimum, so the entry
with the minimum last-active time is not the one replaced.
-/
theorem bucketInsert_evicts_non_oldest :
    (c3State.buckets.getD 3 ⟨0, []⟩).nodes = [c3n1, c3n3] ∧
      c3n1.lastActive < c3n2.lastActive := by
  decide

/-- Witness for the amended C3 at a concrete full bucket with nonzero
last-active stamps: the minimum entry (index 1, last active at 3) is the one
overwritten. -/
theorem bucketInsert_spec_witness :
    (bucketInsert ⟨2, [⟨addr16, 1, 5⟩, ⟨addr4, 2, 3⟩]⟩ ⟨addrZeros, 3, 9⟩).nodes =
        [⟨addr16, 1, 5⟩, ⟨addr4, 2, 3⟩].set (worstNode [⟨addr16, 1, 5⟩, ⟨addr4, 2, 3⟩]) ⟨addrZeros, 3, 9⟩ ∧
      worstNode [⟨addr16, (1 : Nat), (5 : Nat)⟩, ⟨addr4, 2, 3⟩] < 2 ∧
      ∀ m ∈ [⟨addr16, (1 : Nat), (5 : Nat)⟩, (⟨addr4, 2, 3⟩ : KNode)],
        ([⟨addr16, (1 : Nat), (5 : Nat)⟩, (⟨addr4, 2, 3⟩ : KNode)].getD
          (worstNode [⟨addr16, 1, 5⟩, ⟨addr4, 2, 3⟩]) ⟨[], 0, 0⟩).lastActive ≤ m.lastActive :=
  (bucketInsert_spec ⟨2, [⟨addr16, 1, 5⟩, ⟨addr4, 2, 3⟩]⟩ ⟨addrZeros, 3, 9⟩).2.2
    (by decide) (by decide) (by decide)

/-! ## C4: `GetNodes` and the distance-ordered aggregator -/

/-- `nodesByDistance`: a list of nodes ordered by distance to `target`. -/
structure NodesByDistance where
  nodes : List KNode
  target : List Nat
deriving DecidableEq, Repr

/-- The `sort.Search` call of `nodesByDistance.push`: Go's stdlib binary
search contract is "the smallest index `ix` in `[0, n)` at which the
predicate is true (assuming monotonicity), or `n`"; here the predicate is
`proxCmp(target, nodes[ix], node) >= 0`.  Rendered as the equivalent
first-match scan (`push` only ever runs on lists sorted by `proxCmp`, where
the binary search meets its contract). -/
def searchGE (t : List Nat) (x : List Nat) : List KNode → Nat
  | [] => 0
  | y :: rest => if proxCmp t y.addr x ≥ 0 then 0 else searchGE t x rest + 1

/-- `nodesByDistance.push(node, max)`: append when below `max`, then (when
the insertion point lies inside the list) shift `nodes[ix:len-1]` one slot
right and write `node` at `ix`. -/
def push (h : NodesByDistance) (node : KNode) (max : Nat) : NodesByDistance :=
  let ix := searchGE h.target node.addr h.nodes
  let ns := if h.nodes.length < max then h.nodes ++ [node] else h.nodes
  let ns := if ix < ns.length then ns.take ix ++ node :: (ns.drop ix).dropLast else ns
  { h with nodes := ns }

/-- `sortedByDistanceTo` from `kademlia.go`: scan adjacent entries and fail
when a later entry is strictly closer to the target than its predecessor. -/
def sortedByDistanceTo (target : List Nat) : List KNode → Bool
  | a :: b :: rest =>
    if proxCmp target b.addr a.addr < 0 then false
    else sortedByDistanceTo target (b :: rest)
  | _ => true

/-- The main loop of `Kademlia.getNodes`, with the loop state
`(r, n, start, down)` threaded explicitly.  The first argument is an
iteration budget making the loop a structural recursion; the Go loop makes
at most `maxProx + 1` passes in each direction, so the budget
`2 * maxProx + 4` used by `getNodes` below is never exhausted (and every
property proved about the result is budget-invariant). -/
def getNodesGo (s : Kad) (max limit index : Nat) :
    Nat → NodesByDistance → Nat → Nat → Bool → NodesByDistance
  | 0, r, _, _, _ => r
  | fuel + 1, r, n, start, down =>
    let bucket := (s.buckets.getD start ⟨0, []⟩).nodes
    let r' := bucket.foldl (fun acc nd => push acc nd limit) r
    let n' := n + bucket.length
    if (max = 0 ∧ start ≤ index ∧ (0 < n' ∨ start = 0)) ∨
        (0 < max ∧ down = true ∧ start ≤ index ∧
          (limit ≤ n' ∨ (n' : Int) = s.count ∨ start = 0)) then r'
    else if down then getNodesGo s max limit index fuel r' n' (start - 1) down
    else if start = s.maxProx then
      if index = 0 then r'
      else getNodesGo s max limit index fuel r' n' (index - 1) true
    else getNodesGo s max limit index fuel r' n' (start + 1) down

/-- `Kademlia.getNodes(target, max)`: choose the walk orientation from the
target's proximity bin and `proxLimit`, then run the main loop. -/
def getNodes (s : Kad) (target : List Nat) (max : Nat) : NodesByDistance :=
  let index0 := proximityBin s target
  let index := if index0 ≥ s.proxLimit then s.proxLimit else index0
  let start := if index0 ≥ s.proxLimit then s.maxProx else index0
  let down := decide (index0 ≥ s.proxLimit)
  let limit := if max = 0 then 1000 else max
  getNodesGo s max limit index (2 * s.maxProx + 4) ⟨[], target⟩ 0 start down

/-- `Kademlia.GetNodes(target, max)` returns the node list of `getNodes`. -/
def GetNodes (s : Kad) (target : List Nat) (max : Nat) : List KNode :=
  (getNodes s target max).nodes

/-- The ordering `push` maintains: `a` is at most as distant as `b`. -/
def leD (t : List Nat) (a b : KNode) : Prop :=
  proxCmp t a.addr b.addr ≤ 0

theorem proxCmp_antisymm (t a b : List Nat) : proxCmp t a b = -proxCmp t b a := by
  induction t generalizing a b with
  | nil => rfl
  | cons tb ts ih =>
    cases a with
    | nil => cases b <;> rfl
    | cons ab as =>
      cases b with
      | nil => rfl
      | cons bb bs =>
        simp only [proxCmp]
        split_ifs <;> first | omega | exact ih as bs

theorem proxCmp_trans_le (t a b c : List Nat)
    (hat : a.length = t.length) (hbt : b.length = t.length)
    (hct : c.length = t.length)
    (hab : proxCmp t a b ≤ 0) (hbc : proxCmp t b c ≤ 0) :
    proxCmp t a c ≤ 0 := by
  induction t generalizing a b c with
  | nil =>
    rw [List.length_nil, List.length_eq_zero] at hat hct
    subst hat; subst hct
    rfl
  | cons tb ts ih =>
    cases a with
    | nil => simp at hat
    | cons ab as =>
      cases b with
      | nil => simp at hbt
      | cons bb bs =>
        cases c with
        | nil => simp at hct
        | cons cb cs =>
          simp only [proxCmp] at hab hbc ⊢
          split_ifs at hab hbc ⊢ <;>
            first
              | omega
              | exact ih as bs cs (by simpa using hat) (by simpa using hbt)
                  (by simpa using hct) hab hbc

theorem searchGE_le_length (t x : List Nat) (ns : List KNode) :
    searchGE t x ns ≤ ns.length := by
  induction ns with
  | nil => simp [searchGE]
  | cons y rest ih =>
    simp only [searchGE]
    split
    · simp
    · simp only [List.length_cons]; omega

theorem searchGE_take (t x : List Nat) (ns : List KNode) :
    ∀ y ∈ ns.take (searchGE t x ns), proxCmp t y.addr x < 0 := by
  induction ns with
  | nil => simp [searchGE]
  | cons z rest ih =>
    simp only [searchGE]
    split
    · simp
    · rename_i hz
      intro y hy
      rw [List.take_succ_cons] at hy
      rcases List.mem_cons.mp hy with rfl | hy
      · omega
      · exact ih y hy

theorem searchGE_drop (t x : List Nat) (ns : List KNode)
    (hpw : List.Pairwise (leD t) ns)
    (hlen : ∀ y ∈ ns, y.addr.length = t.length) (hx : x.length = t.length) :
    ∀ y ∈ ns.drop (searchGE t x ns), 0 ≤ proxCmp t y.addr x := by
  induction ns with
  | nil => simp [searchGE]
  | cons z rest ih =>
    simp only [searchGE]
    split
    · rename_i hz
      intro y hy
      rw [List.drop_zero] at hy
      rcases List.mem_cons.mp hy with rfl | hy
      · exact hz
      · -- `x ≤ z ≤ y` in distance, so `0 ≤ proxCmp t y x`
        have hzy : proxCmp t z.addr y.addr ≤ 0 :=
          (List.pairwise_cons.mp hpw).1 y hy
        have hxz : proxCmp t x z.addr ≤ 0 := by
          rw [proxCmp_antisymm]; omega
        have hxy : proxCmp t x y.addr ≤ 0 :=
          proxCmp_trans_le t x z.addr y.addr hx (hlen z (by simp))
            (hlen y (by simp [hy])) hxz hzy
        rw [proxCmp_antisymm] at hxy
        omega
    · intro y hy
      rw [List.drop_succ_cons] at hy
      exact ih (List.pairwise_cons.mp hpw).2
        (fun m hm => hlen m (by simp [hm])) y hy

theorem push_nodes (h : NodesByDistance) (node : KNode) (max : Nat) :
    (push h node max).nodes =
      if h.nodes.length < max then
        h.nodes.take (searchGE h.target node.addr h.nodes) ++
          node :: h.nodes.drop (searchGE h.target node.addr h.nodes)
      else if searchGE h.target node.addr h.nodes < h.nodes.length then
        h.nodes.take (searchGE h.target node.addr h.nodes) ++
          node :: (h.nodes.drop (searchGE h.target node.addr h.nodes)).dropLast
      else h.nodes := by
  have hix := searchGE_le_length h.target node.addr h.nodes
  unfold push
  by_cases hlt : h.nodes.length < max
  · have hlen : searchGE h.target node.addr h.nodes < (h.nodes ++ [node]).length := by
      simp only [List.length_append, List.length_cons, List.length_nil]
      omega
    simp only [if_pos hlt, if_pos hlen]
    rw [List.take_append_of_le_length hix, List.drop_append_of_le_length hix,
      List.dropLast_concat]
  · by_cases hin : searchGE h.target node.addr h.nodes < h.nodes.length
    · simp only [if_neg hlt, if_pos hin]
    · simp only [if_neg hlt, if_neg hin]

theorem push_target (h : NodesByDistance) (node : KNode) (max : Nat) :
    (push h node max).target = h.target := rfl

theorem push_le_length (h : NodesByDistance) (node : KNode) (max : Nat)
    (hle : h.nodes.length ≤ max) : (push h node max).nodes.length ≤ max := by
  have hix := searchGE_le_length h.target node.addr h.nodes
  rw [push_nodes]
  split_ifs with h1 h2
  · simp only [List.length_append, List.length_cons, List.length_take, List.length_drop]
    omega
  · simp only [List.length_append, List.length_cons, List.length_take,
      List.length_dropLast, List.length_drop]
    omega
  · exact hle

theorem pairwise_insert (t : List Nat) (ns : List KNode) (node : KNode)
    (hpw : List.Pairwise (leD t) ns)
    (hlen : ∀ y ∈ ns, y.addr.length = t.length)
    (hnode : node.addr.length = t.length) :
    List.Pairwise (leD t)
      (ns.take (searchGE t node.addr ns) ++ node :: ns.drop (searchGE t node.addr ns)) := by
  rw [List.pairwise_append]
  refine ⟨hpw.sublist (List.take_sublist _ _), ?_, ?_⟩
  · rw [List.pairwise_cons]
    refine ⟨?_, hpw.sublist (List.drop_sublist _ _)⟩
    intro y hy
    have := searchGE_drop t node.addr ns hpw hlen hnode y hy
    unfold leD
    rw [proxCmp_antisymm]
    omega
  · intro a ha b hb
    rcases List.mem_cons.mp hb with hb | hb
    · rw [hb]
      have := searchGE_take t node.addr ns a ha
      unfold leD
      omega
    · have hsplit := hpw
      rw [← List.take_append_drop (searchGE t node.addr ns) ns,
        List.pairwise_append] at hsplit
      exact hsplit.2.2 a ha b hb

theorem push_pairwise (h : NodesByDistance) (node : KNode) (max : Nat)
    (hpw : List.Pairwise (leD h.target) h.nodes)
    (hlen : ∀ y ∈ h.nodes, y.addr.length = h.target.length)
    (hnode : node.addr.length = h.target.length) :
    List.Pairwise (leD h.target) (push h node max).nodes ∧
      ∀ y ∈ (push h node max).nodes, y.addr.length = h.target.length := by
  rw [push_nodes]
  split_ifs with h1 h2
  · refine ⟨pairwise_insert h.target h.nodes node hpw hlen hnode, ?_⟩
    intro y hy
    rcases List.mem_append.mp hy with hy | hy
    · exact hlen y (List.mem_of_mem_take hy)
    · rcases List.mem_cons.mp hy with rfl | hy
      · exact hnode
      · exact hlen y (List.mem_of_mem_drop hy)
  · have hsub : (h.nodes.take (searchGE h.target node.addr h.nodes) ++
        node :: (h.nodes.drop (searchGE h.target node.addr h.nodes)).dropLast).Sublist
        (h.nodes.take (searchGE h.target node.addr h.nodes) ++
          node :: h.nodes.drop (searchGE h.target node.addr h.nodes)) := by
      apply List.Sublist.append_left
      exact List.Sublist.cons₂ node (List.dropLast_sublist _)
    refine ⟨(pairwise_insert h.target h.nodes node hpw hlen hnode).sublist hsub, ?_⟩
    intro y hy
    rcases List.mem_append.mp hy with hy | hy
    · exact hlen y (List.mem_of_mem_take hy)
    · rcases List.mem_cons.mp hy with rfl | hy
      · exact hnode
      · exact hlen y (List.mem_of_mem_drop (List.mem_of_mem_dropLast hy))
  · exact ⟨hpw, hlen⟩

theorem foldl_push_inv (limit : Nat) (bucket : List KNode) (r : NodesByDistance)
    (hpw : List.Pairwise (leD r.target) r.nodes) (hle : r.nodes.length ≤ limit)
    (hlen : ∀ y ∈ r.nodes, y.addr.length = r.target.length)
    (hbucket : ∀ y ∈ bucket, y.addr.length = r.target.length) :
    (bucket.foldl (fun acc nd => push acc nd limit) r).target = r.target ∧
      List.Pairwise (leD r.target)
        (bucket.foldl (fun acc nd => push acc nd limit) r).nodes ∧
      (bucket.foldl (fun acc nd => push acc nd limit) r).nodes.length ≤ limit ∧
      ∀ y ∈ (bucket.foldl (fun acc nd => push acc nd limit) r).nodes,
        y.addr.length = r.target.length := by
  induction bucket generalizing r with
  | nil => exact ⟨rfl, hpw, hle, hlen⟩
  | cons nd rest ih =>
    rw [List.foldl_cons]
    have hnd : nd.addr.length = r.target.length := hbucket nd (by simp)
    obtain ⟨hp1, hp2⟩ := push_pairwise r nd limit hpw hlen hnd
    have hl1 := push_le_length r nd limit hle
    have htgt : (push r nd limit).target = r.target := rfl
    have := ih (push r nd limit) (by rw [htgt]; exact hp1) hl1 (by rw [htgt]; exact hp2)
      (by rw [htgt]; exact fun y hy => hbucket y (by simp [hy]))
    rw [htgt] at this
    exact this

theorem getD_bucket_len (s : Kad) (target : List Nat)
    (hbuckets : ∀ b ∈ s.buckets, ∀ m ∈ b.nodes, m.addr.length = target.length)
    (i : Nat) :
    ∀ m ∈ (s.buckets.getD i ⟨0, []⟩).nodes, m.addr.length = target.length := by
  intro m hm
  by_cases hi : i < s.buckets.length
  · rw [List.getD_eq_getElem?_getD, List.getElem?_eq_getElem hi] at hm
    exact hbuckets _ (List.getElem_mem hi) m hm
  · rw [List.getD_eq_getElem?_getD, List.getElem?_eq_none (by omega)] at hm
    simp at hm

theorem getNodesGo_inv (s : Kad) (max limit index : Nat) (target : List Nat)
    (hbuckets : ∀ b ∈ s.buckets, ∀ m ∈ b.nodes, m.addr.length = target.length)
    (fuel : Nat) :
    ∀ (r : NodesByDistance) (n start : Nat) (down : Bool),
      r.target = target → List.Pairwise (leD target) r.nodes →
      r.nodes.length ≤ limit → (∀ y ∈ r.nodes, y.addr.length = target.length) →
      (getNodesGo s max limit index fuel r n start down).target = target ∧
        List.Pairwise (leD target) (getNodesGo s max limit index fuel r n start down).nodes ∧
        (getNodesGo s max limit index fuel r n start down).nodes.length ≤ limit ∧
        ∀ y ∈ (getNodesGo s max limit index fuel r n start down).nodes,
          y.addr.length = target.length := by
  induction fuel with
  | zero => exact fun r n start down h1 h2 h3 h4 => ⟨h1, h2, h3, h4⟩
  | succ fuel ih =>
    intro r n start down h1 h2 h3 h4
    have hfold := foldl_push_inv limit (s.buckets.getD start ⟨0, []⟩).nodes r
      (by rw [h1]; exact h2) h3 (by rw [h1]; exact h4)
      (by rw [h1]; exact getD_bucket_len s target hbuckets start)
    rw [h1] at hfold
    obtain ⟨hf1, hf2, hf3, hf4⟩ := hfold
    simp only [getNodesGo]
    split
    · exact ⟨hf1, hf2, hf3, hf4⟩
    · split
      · exact ih _ _ _ _ hf1 hf2 hf3 hf4
      · split
        · split
          · exact ⟨hf1, hf2, hf3, hf4⟩
          · exact ih _ _ _ _ hf1 hf2 hf3 hf4
        · exact ih _ _ _ _ hf1 hf2 hf3 hf4

theorem sortedByDistanceTo_of_pairwise (t : List Nat) (l : List KNode)
    (hl : List.Pairwise (leD t) l) : sortedByDistanceTo t l = true := by
  induction hl with
  | nil => rfl
  | @cons a rest ha hrest ih =>
    cases rest with
    | nil => rfl
    | cons b rest2 =>
      have hab : leD t a b := ha b (by simp)
      simp only [sortedByDistanceTo]
      rw [if_neg (by unfold leD at hab; rw [proxCmp_antisymm]; omega)]
      exact ih

/--
Claim C4 (amended): For every `max > 0` and every state whose bucket entries
carry addresses of the target's length, `GetNodes(target, max)` returns at
most `max` peers, sorted non-decreasingly by XOR distance to `target` as
measured by `proxCmp` (the code's own `sortedByDistanceTo` check accepts the
result).  Tied entries — possible only for duplicate addresses — are **not**
kept in insertion order: `push` places a newcomer before existing
equal-distance entries (see the counterexample).
-/
theorem getNodes_sorted_bounded (s : Kad) (target : List Nat) (max : Nat)
    (hmax : 0 < max)
    (hbuckets : ∀ b ∈ s.buckets, ∀ m ∈ b.nodes, m.addr.length = target.length) :
    (GetNodes s target max).length ≤ max ∧
      sortedByDistanceTo target (GetNodes s target max) = true := by
  unfold GetNodes getNodes
  simp only [show max ≠ 0 from by omega, if_false]
  have hinv := getNodesGo_inv s max max
    (if proximityBin s target ≥ s.proxLimit then s.proxLimit else proximityBin s target)
    target hbuckets (2 * s.maxProx + 4) ⟨[], target⟩ 0
    (if proximityBin s target ≥ s.proxLimit then s.maxProx else proximityBin s target)
    (decide (proximityBin s target ≥ s.proxLimit)) rfl (by simp) (by simp) (by simp)
  exact ⟨hinv.2.2.1, sortedByDistanceTo_of_pairwise target _ hinv.2.1⟩

/-- First peer pushed into the aggregator: address `addr16`. -/
def c4n1 : KNode := ⟨addr16, 1, 1⟩

/-- Second, distinct peer with the **same** address `addr16`. -/
def c4n2 : KNode := ⟨addr16, 2, 2⟩

/-- Table (preset `MaxProx = 7`, `BucketSize = 2`) holding `c4n1` then `c4n2`
in bin 3, added in that order. -/
def c4State : Kad := addNode (addNode (kadStart addrZeros 7 2 0) c4n1) c4n2

/--
Claim C4 (counterexample): Ties are not resolved by insertion order: `c4n1`
was inserted before `c4n2`, both at XOR distance `0` from the target
(`proxCmp = 0`), yet `GetNodes` returns `[c4n2, c4n1]` — `push` places a
tied newcomer before the existing entry.
-/
theorem getNodes_tie_not_insertion_order :
    GetNodes c4State addr16 2 = [c4n2, c4n1] ∧ c4n1 ≠ c4n2 ∧
      proxCmp addr16 c4n1.addr c4n2.addr = 0 := by
  decide

/-- Witness for the amended C4 on the concrete two-node table. -/
theorem getNodes_sorted_bounded_witness :
    (GetNodes c4State addr16 2).length ≤ 2 ∧
      sortedByDistanceTo addr16 (GetNodes c4State addr16 2) = true :=
  getNodes_sorted_bounded c4State addr16 2 (by decide) (by decide)

/-! ## The bzz wire protocol (`bzz/protocol.go`) -/

/-- `statusMsg` (message code 0). -/
def statusMsgCode : Nat := 0

/-- `storeRequestMsg` (message code 1). -/
def storeRequestMsgCode : Nat := 1

/-- `retrieveRequestMsg` (message code 2). -/
def retrieveRequestMsgCode : Nat := 2

/-- `peersMsg` (message code 3). -/
def peersMsgCode : Nat := 3

/-- `ProtocolMaxMsgSize = 10 * 1024 * 1024` (10 MiB). -/
def protocolMaxMsgSize : Nat := 10 * 1024 * 1024

/-- `Version = 0`. -/
def bzzVersion : Nat := 0

/-- `NetworkId = 0`. -/
def bzzNetworkId : Nat := 0

/-- The enumerated protocol error codes (`ErrMsgTooLarge`, ...). -/
inductive ProtoErr where
  | msgTooLarge
  | decodeErr
  | invalidMsgCode
  | versionMismatch
  | networkIdMismatch
  | noStatusMsg
  | extraStatusMsg
deriving DecidableEq, Repr

/-- `peerAddr` payload fields. -/
structure PeerAddrData where
  ip : List Nat
  port : Nat
  id : List Nat
deriving DecidableEq, Repr

/-- `statusMsgData` payload fields. -/
structure StatusData where
  version : Nat
  id : String
  nodeId : List Nat
  addr : PeerAddrData
  networkId : Nat
  caps : List (String × Nat)
deriving DecidableEq, Repr

/-- `storeRequestMsgData` wire fields. -/
structure StoreRequestData where
  key : List Nat
  sData : List Nat
  id : Nat
deriving DecidableEq, Repr

/-- `retrieveRequestMsgData` wire fields; a `none` key models Go's nil
`req.Key` after decoding. -/
structure RetrieveRequestData where
  key : Option (List Nat)
  id : Nat
  maxSize : Nat
  maxPeers : Nat
deriving DecidableEq, Repr

/-- `peersMsgData` wire fields. -/
structure PeersData where
  peers : List PeerAddrData
  key : List Nat
  id : Nat
deriving DecidableEq, Repr

/-- What a frame's payload bytes decode to: one of the four message structs,
or nothing well-formed (`badP`); `msg.Decode` into the struct selected by
the message code succeeds exactly when the payload holds that struct. -/
inductive Payload where
  | statusP (s : StatusData)
  | storeP (r : StoreRequestData)
  | retrieveP (r : RetrieveRequestData)
  | peersP (p : PeersData)
  | badP
deriving DecidableEq, Repr

/-- An incoming framed message: code, frame size, payload. -/
structure Msg where
  code : Nat
  size : Nat
  payload : Payload
deriving DecidableEq, Repr

/-- The receive half of `bzzProtocol.handleStatus`, checked in source order:
message code, frame size, decode, `NetworkId`, `Version`.  On success the
peer is registered with the hive (`netStore.hive.addPeer`). -/
def handleStatus (m : Msg) : Except ProtoErr StatusData :=
  if m.code ≠ statusMsgCode then .error .noStatusMsg
  else if m.size > protocolMaxMsgSize then .error .msgTooLarge
  else
    match m.payload with
    | .statusP status =>
      if status.networkId ≠ bzzNetworkId then .error .networkIdMismatch
      else if bzzVersion ≠ status.version then .error .versionMismatch
      else .ok status
    | _ => .error .decodeErr

/-- Whether the handshake registers the peer: `hive.addPeer` runs exactly on
the success path of `handleStatus`. -/
def handshakeRegisters (m : Msg) : Bool :=
  match handleStatus m with
  | .ok _ => true
  | .error _ => false

/-- The netStore/hive call a successfully handled ACTIVE message makes. -/
inductive NetAction where
  | addStoreRequest (r : StoreRequestData)
  | addRetrieveRequest (r : RetrieveRequestData)
  | addPeerEntries (p : PeersData)
deriving DecidableEq, Repr

/-- `bzzProtocol.handle`: one ACTIVE-loop message dispatch, in source order:
frame-size check, then the `switch` on the message code (a status message is
`ErrExtraStatusMsg`; a nil retrieve key is a decode error). -/
def handle (m : Msg) : Except ProtoErr NetAction :=
  if m.size > protocolMaxMsgSize then .error .msgTooLarge
  else if m.code = statusMsgCode then .error .extraStatusMsg
  else if m.code = storeRequestMsgCode then
    match m.payload with
    | .storeP r => .ok (.addStoreRequest r)
    | _ => .error .decodeErr
  else if m.code = retrieveRequestMsgCode then
    match m.payload with
    | .retrieveP r =>
      if r.key = none then .error .decodeErr
      else .ok (.addRetrieveRequest r)
    | _ => .error .decodeErr
  else if m.code = peersMsgCode then
    match m.payload with
    | .peersP p => .ok (.addPeerEntries p)
    | _ => .error .decodeErr
  else .error .invalidMsgCode

/-- The ACTIVE message loop of `runBzzProtocol` over a trace of incoming
messages, after a successful handshake (peer registered).  The Bool result
says whether the peer is still registered when the trace ends: on the first
`handle` error the loop runs `hive.removePeer` and breaks, leaving the rest
of the trace unread. -/
def sessionLoop : List Msg → Bool × Option ProtoErr
  | [] => (true, none)
  | m :: rest =>
    match handle m with
    | .ok _ => sessionLoop rest
    | .error e => (false, some e)

theorem handshakeRegisters_iff (m : Msg) :
    handshakeRegisters m = true ↔ ∃ st, handleStatus m = .ok st := by
  unfold handshakeRegisters
  cases h : handleStatus m <;> simp [h]

theorem handleStatus_ok_iff (m : Msg) (st : StatusData) :
    handleStatus m = .ok st ↔
      m.code = statusMsgCode ∧ m.size ≤ protocolMaxMsgSize ∧
        m.payload = .statusP st ∧ st.networkId = bzzNetworkId ∧
          st.version = bzzVersion := by
  obtain ⟨code, size, payload⟩ := m
  unfold handleStatus
  dsimp only
  cases payload with
  | statusP s =>
    by_cases h1 : code ≠ statusMsgCode
    · rw [if_pos h1]
      exact ⟨fun h => by simp at h, fun hh => absurd hh.1 h1⟩
    · rw [if_neg h1]
      by_cases h2 : size > protocolMaxMsgSize
      · rw [if_pos h2]
        exact ⟨fun h => by simp at h, fun hh => by have := hh.2.1; omega⟩
      · rw [if_neg h2]
        show (if s.networkId ≠ bzzNetworkId then Except.error ProtoErr.networkIdMismatch
            else if bzzVersion ≠ s.version then Except.error ProtoErr.versionMismatch
            else Except.ok s) = Except.ok st ↔ _
        by_cases h3 : s.networkId ≠ bzzNetworkId
        · rw [if_pos h3]
          refine ⟨fun h => by simp at h, ?_⟩
          rintro ⟨-, -, hst, hn, -⟩
          rw [Payload.statusP.injEq] at hst
          exact absurd (show s.networkId = bzzNetworkId by rw [hst]; exact hn) h3
        · rw [if_neg h3]
          by_cases h4 : bzzVersion ≠ s.version
          · rw [if_pos h4]
            refine ⟨fun h => by simp at h, ?_⟩
            rintro ⟨-, -, hst, -, hv⟩
            rw [Payload.statusP.injEq] at hst
            exact absurd (show bzzVersion = s.version by rw [hst]; omega) h4
          · rw [if_neg h4]
            constructor
            · intro h
              rw [Except.ok.injEq] at h
              subst h
              exact ⟨by omega, by omega, rfl, by omega, by omega⟩
            · rintro ⟨-, -, hst, -, -⟩
              rw [Payload.statusP.injEq] at hst
              rw [hst]
  | storeP r =>
    split_ifs with h1 h2 <;>
      exact ⟨fun h => by simp at h, fun hh => by
        obtain ⟨-, -, hst, -, -⟩ := hh
        cases hst⟩
  | retrieveP r =>
    split_ifs with h1 h2 <;>
      exact ⟨fun h => by simp at h, fun hh => by
        obtain ⟨-, -, hst, -, -⟩ := hh
        cases hst⟩
  | peersP p =>
    split_ifs with h1 h2 <;>
      exact ⟨fun h => by simp at h, fun hh => by
        obtain ⟨-, -, hst, -, -⟩ := hh
        cases hst⟩
  | badP =>
    split_ifs with h1 h2 <;>
      exact ⟨fun h => by simp at h, fun hh => by
        obtain ⟨-, -, hst, -, -⟩ := hh
        cases hst⟩

/--
Claim C7: `handleStatus` accepts (and registers the peer) exactly when the
first received message is a status message, of size at most 10 MiB, whose
`network_id` equals the local `NetworkId` and whose `version` equals the
local `Version`; each violation fails with the corresponding enumerated
error, checked in source order, and a rejected handshake never registers
the peer.
-/
theorem handleStatus_spec (m : Msg) :
    (handshakeRegisters m = true ↔
      m.code = statusMsgCode ∧ m.size ≤ protocolMaxMsgSize ∧
        ∃ st, m.payload = .statusP st ∧ st.networkId = bzzNetworkId ∧
          st.version = bzzVersion) ∧
      (m.code ≠ statusMsgCode → handleStatus m = .error .noStatusMsg) ∧
      (m.code = statusMsgCode → protocolMaxMsgSize < m.size →
        handleStatus m = .error .msgTooLarge) ∧
      (∀ st, m.code = statusMsgCode → m.size ≤ protocolMaxMsgSize →
        m.payload = .statusP st → st.networkId ≠ bzzNetworkId →
        handleStatus m = .error .networkIdMismatch) ∧
      (∀ st, m.code = statusMsgCode → m.size ≤ protocolMaxMsgSize →
        m.payload = .statusP st → st.networkId = bzzNetworkId →
        st.version ≠ bzzVersion → handleStatus m = .error .versionMismatch) := by
  refine ⟨?_, ?_, ?_, ?_, ?_⟩
  · rw [handshakeRegisters_iff]
    constructor
    · rintro ⟨st, hst⟩
      obtain ⟨a, b, c, d, e⟩ := (handleStatus_ok_iff m st).mp hst
      exact ⟨a, b, st, c, d, e⟩
    · rintro ⟨a, b, st, c, d, e⟩
      exact ⟨st, (handleStatus_ok_iff m st).mpr ⟨a, b, c, d, e⟩⟩
  · intro h
    unfold handleStatus
    rw [if_pos h]
  · intro h1 h2
    unfold handleStatus
    rw [if_neg (by omega), if_pos (by omega)]
  · intro st h1 h2 h3 h4
    unfold handleStatus
    rw [if_neg (by omega), if_neg (by omega), h3]
    dsimp only
    rw [if_pos h4]
  · intro st h1 h2 h3 h4 h5
    unfold handleStatus
    rw [if_neg (by omega), if_neg (by omega), h3]
    dsimp only
    rw [if_neg (by omega), if_pos (by omega)]

/-- A status payload that matches the local version and network id. -/
def c7GoodStatus : StatusData :=
  ⟨0, "honey", List.replicate 64 1, ⟨[127, 0, 0, 1], 30300, List.replicate 64 1⟩, 0, []⟩

/-- A status payload with a mismatched network id. -/
def c7BadNetStatus : StatusData :=
  ⟨0, "honey", List.replicate 64 1, ⟨[127, 0, 0, 1], 30300, List.replicate 64 1⟩, 5, []⟩

/-- Witness for C7: a well-formed handshake registers; a mismatched
`network_id` fails with `NetworkIdMismatch`; a non-status first message
fails with `NoStatusMsg`. -/
theorem handleStatus_spec_witness :
    handshakeRegisters ⟨0, 100, .statusP c7GoodStatus⟩ = true ∧
      handleStatus ⟨0, 100, .statusP c7BadNetStatus⟩ = .error .networkIdMismatch ∧
      handleStatus ⟨1, 100, .storeP ⟨[1], [2], 3⟩⟩ = .error .noStatusMsg :=
  ⟨(handleStatus_spec ⟨0, 100, .statusP c7GoodStatus⟩).1.mpr
      ⟨rfl, by decide, c7GoodStatus, rfl, rfl, rfl⟩,
    (handleStatus_spec ⟨0, 100, .statusP c7BadNetStatus⟩).2.2.2.1 c7BadNetStatus
      rfl (by decide) rfl (by decide),
    (handleStatus_spec ⟨1, 100, .storeP ⟨[1], [2], 3⟩⟩).2.1 (by decide)⟩

/-- The status payload used by the C8 input messages. -/
def c8Status : StatusData := ⟨0, "honey", [], ⟨[], 0, []⟩, 0, []⟩

/-- A status frame one byte over `ProtocolMaxMsgSize`. -/
def c8BigStatusMsg : Msg := ⟨statusMsgCode, protocolMaxMsgSize + 1, .statusP c8Status⟩

/--
Claim C8 (counterexample): A status message received in the ACTIVE loop does
not always yield `ExtraStatusMsg`: the frame-size check runs first, so an
oversized status frame terminates the session with `MsgTooLarge` instead.
-/
theorem handle_oversize_status_not_extra :
    handle c8BigStatusMsg = .error .msgTooLarge ∧
      ProtoErr.msgTooLarge ≠ ProtoErr.extraStatusMsg :=
  ⟨rfl, by decide⟩

/--
Claim C8 (amended): If a status message **whose frame size is within
`ProtocolMaxMsgSize`** is received in the ACTIVE loop (after any prefix of
messages the handler accepted), the handler returns `ExtraStatusMsg` and the
session terminates: the loop exits without reading the rest of the trace and
the peer is removed from the hive.
-/
theorem sessionLoop_extra_status (pre post : List Msg) (m : Msg)
    (hpre : ∀ x ∈ pre, (handle x).isOk = true)
    (hcode : m.code = statusMsgCode) (hsize : m.size ≤ protocolMaxMsgSize) :
    handle m = .error .extraStatusMsg ∧
      sessionLoop (pre ++ m :: post) = (false, some .extraStatusMsg) := by
  have hm : handle m = .error .extraStatusMsg := by
    unfold handle
    rw [if_neg (by omega), if_pos hcode]
  refine ⟨hm, ?_⟩
  induction pre with
  | nil =>
    simp only [List.nil_append, sessionLoop, hm]
  | cons x rest ih =>
    have hx : (handle x).isOk = true := hpre x (by simp)
    simp only [List.cons_append, sessionLoop]
    cases hhx : handle x with
    | ok a => exact ih fun y hy => hpre y (by simp [hy])
    | error e => rw [hhx] at hx; simp [Except.isOk, Except.toBool] at hx

/-- A well-formed store-request message accepted by `handle`. -/
def c8GoodStore : Msg := ⟨storeRequestMsgCode, 100, .storeP ⟨[1], [2], 7⟩⟩

/-- An in-size status message arriving on the ACTIVE session. -/
def c8SmallStatus : Msg := ⟨statusMsgCode, 100, .statusP c8Status⟩

/-- Witness for the amended C8 on a concrete trace: one accepted store
request, then the status message; the loop stops there and drops the peer. -/
theorem sessionLoop_extra_status_witness :
    handle c8SmallStatus = .error .extraStatusMsg ∧
      sessionLoop ([c8GoodStore] ++ c8SmallStatus :: [c8GoodStore]) =
        (false, some .extraStatusMsg) :=
  sessionLoop_extra_status [c8GoodStore] [c8GoodStore] c8SmallStatus
    (by decide) (by decide) (by decide)

/-! ## C9: the per-entry step of `storeRequestLoop` -/

/-- A chunk as returned by `localStore.dbStore.Get`. -/
structure Chunk where
  key : List Nat
  sData : List Nat
deriving DecidableEq, Repr

/-- The externally visible actions of one pending-store iteration, in
order: `store(req)` sends a `storeRequestMsg` frame, `requestDb.Delete`
removes the queue entry. -/
inductive LoopAction where
  | sendStore (key sData : List Nat) (id : Nat)
  | deleteKey (key : List Nat)
deriving DecidableEq, Repr

/-- One iteration of the `storeRequestLoop` body on the queue entry with
64-byte key `key`: when the first 32 key bytes leave the session's
`addrKey()` prefix the iteration does nothing (the loop re-seeks); otherwise
the chunk named by the last 32 key bytes is looked up in
`netStore.localStore.dbStore` — on error the entry is deleted, on success a
`storeRequest` carrying the chunk's `Key` and `SData` (with the fresh
`generateId()` value `id`) is sent and then the entry is deleted. -/
def storeRequestStep (addrKey : List Nat) (dbGet : List Nat → Option Chunk)
    (key : List Nat) (id : Nat) : List LoopAction :=
  if key.take 32 ≠ addrKey then []
  else
    match dbGet (key.drop 32) with
    | none => [.deleteKey key]
    | some chunk => [.sendStore chunk.key chunk.sData id, .deleteKey key]

/--
Claim C9: For a queue entry whose first 32 key bytes equal the session's peer
address key: if the chunk lookup succeeds, the iteration sends a
storeRequest with that chunk's key and data and then deletes the entry; if
the lookup fails, it deletes the entry without sending anything.
-/
theorem storeRequestStep_spec (addrKey : List Nat)
    (dbGet : List Nat → Option Chunk) (key : List Nat) (id : Nat)
    (hrange : key.take 32 = addrKey) :
    (∀ c, dbGet (key.drop 32) = some c →
      storeRequestStep addrKey dbGet key id =
        [.sendStore c.key c.sData id, .deleteKey key]) ∧
      (dbGet (key.drop 32) = none →
        storeRequestStep addrKey dbGet key id = [.deleteKey key]) := by
  constructor
  · intro c hc
    unfold storeRequestStep
    rw [if_neg (by simp [hrange]), hc]
  · intro hc
    unfold storeRequestStep
    rw [if_neg (by simp [hrange]), hc]

/-- The session's 32-byte address key used by the C9 witness. -/
def c9AddrKey : List Nat := List.replicate 32 7

/-- The chunk key stored in the queue entry used by the C9 witness. -/
def c9ChunkKey : List Nat := List.replicate 32 9

/-- The chunk the local store holds under `c9ChunkKey`. -/
def c9Chunk : Chunk := ⟨c9ChunkKey, [1, 2, 3]⟩

/-- A dbStore holding exactly `c9Chunk`. -/
def c9Db : List Nat → Option Chunk :=
  fun k => if k = c9ChunkKey then some c9Chunk else none

/-- The 64-byte queue entry key `addrKey || chunkKey`. -/
def c9Key : List Nat := c9AddrKey ++ c9ChunkKey

/-- Witness for C9 on a concrete queue entry: with the chunk present the
iteration sends then deletes; with an empty store it only deletes. -/
theorem storeRequestStep_spec_witness :
    storeRequestStep c9AddrKey c9Db c9Key 5 =
        [.sendStore c9Chunk.key c9Chunk.sData 5, .deleteKey c9Key] ∧
      storeRequestStep c9AddrKey (fun _ => none) c9Key 5 = [.deleteKey c9Key] :=
  ⟨(storeRequestStep_spec c9AddrKey c9Db c9Key 5 (by decide)).1 c9Chunk (by decide),
    (storeRequestStep_spec c9AddrKey (fun _ => none) c9Key 5 (by decide)).2 rfl⟩

end Swarm
